import Mathlib

/-!
Verification development for the xdialcoreapi call-session grouping and
aggregation engine.  The definitions below are shallow embeddings of the
Python source: `group_calls_by_session` (src/utils/call.py and
src/api/campaigns.py), the call-id grouping pipeline of
`fetch_call_data` (src/api/call_lookup.py), the category resolver and the
dashboard aggregations of src/api/campaign_metrics.py, and the rate
helpers of src/api/stats.py and src/api/stats/voice_stats.py.

Machine conventions: timestamps are integers (seconds); a window of
`m` minutes is the duration `60 * m`.  Python dictionaries that are
iterated in insertion order are embedded as association lists.  Python's
`round(x, 2)` is embedded over exact rationals with round-half-to-even.
-/

namespace XDial

/-- A raw call-stage row, as selected by the endpoints' SQL queries:
`number`, `timestamp`, `call_id`, `stage` (optional integer ≥ 0),
`transferred`, the joined `response_category` name and `voice_name`. -/
structure Call where
  number : String
  timestamp : Int
  callId : Option Int
  stage : Option Nat
  transferred : Bool
  responseCategory : Option String
  voiceName : Option String
deriving DecidableEq, Repr

/-- The sort key used by `sorted(calls, key=lambda x: (x['number'], x['timestamp']))`:
lexicographic comparison on `(number, timestamp)`. -/
def callLE (a b : Call) : Prop :=
  a.number < b.number ∨ (a.number = b.number ∧ a.timestamp ≤ b.timestamp)

instance : DecidableRel callLE := fun a b => by
  unfold callLE; infer_instance

instance : IsTotal Call callLE where
  total a b := by
    unfold callLE
    rcases lt_trichotomy a.number b.number with h | h | h
    · exact Or.inl (Or.inl h)
    · rcases le_total a.timestamp b.timestamp with ht | ht
      · exact Or.inl (Or.inr ⟨h, ht⟩)
      · exact Or.inr (Or.inr ⟨h.symm, ht⟩)
    · exact Or.inr (Or.inl h)

instance : IsTrans Call callLE where
  trans a b c hab hbc := by
    unfold callLE at *
    rcases hab with h1 | ⟨h1, t1⟩
    · rcases hbc with h2 | ⟨h2, _⟩
      · exact Or.inl (h1.trans h2)
      · exact Or.inl (h2 ▸ h1)
    · rcases hbc with h2 | ⟨h2, t2⟩
      · exact Or.inl (h1 ▸ h2)
      · exact Or.inr ⟨h1.trans h2, t1.trans t2⟩

/-- The loop body of `group_calls_by_session`: walking the sorted list, the
current record joins the current session when it has the same `number` as the
previous record and the timestamp gap is within the window `w`; otherwise a
new session is started.  `splitSessions w c l` returns the session containing
`c` (the current head) together with the later sessions. -/
def splitSessions (w : Int) (c : Call) : List Call → List Call × List (List Call)
  | [] => ([c], [])
  | d :: rest =>
    let p := splitSessions w d rest
    if d.number = c.number ∧ d.timestamp - c.timestamp ≤ w then
      (c :: p.1, p.2)
    else
      ([c], p.1 :: p.2)

/-- Sessions of an already sorted list of calls. -/
def sessionsOfSorted (w : Int) : List Call → List (List Call)
  | [] => []
  | c :: rest => (splitSessions w c rest).1 :: (splitSessions w c rest).2

/-- Embedding of `group_calls_by_session(calls, duration_minutes)`
(src/utils/call.py lines 4-47, duplicated in src/api/campaigns.py lines
160-196): sort by `(number, timestamp)`, then cut the sorted list into
sessions whenever the number changes or the gap from the previous record
exceeds `timedelta(minutes=duration_minutes)` (= `60 * durationMinutes`
seconds). -/
def group_calls_by_session (calls : List Call) (durationMinutes : Int) : List (List Call) :=
  sessionsOfSorted (60 * durationMinutes) (List.insertionSort callLE calls)

/-! ## Session resolution (final-stage selection) -/

/-- `x['stage'] or 0`: a null stage sorts as 0. -/
def stageVal (c : Call) : Nat := c.stage.getD 0

/-- The comparison used by `sorted(session, key=lambda x: x['stage'] or 0)`. -/
def stageLE (a b : Call) : Prop := stageVal a ≤ stageVal b

instance : DecidableRel stageLE := fun a b => by
  unfold stageLE; infer_instance

instance : IsTotal Call stageLE where
  total a b := Nat.le_total (stageVal a) (stageVal b)

instance : IsTrans Call stageLE where
  trans _ _ _ hab hbc := Nat.le_trans hab hbc

/-- Embedding of `sorted(session, key=lambda x: x['stage'] or 0)[-1]`
(src/api/campaign_metrics.py line 752 and lines 812-815): Python's stable
sort by `(stage or 0)` followed by taking the last element. -/
def adminLatestCall (session : List Call) : Option Call :=
  (List.insertionSort stageLE session).getLast?

/-- Embedding of `sorted(session, key=lambda x: x['stage'] or 0)[0]`
(src/api/campaign_metrics.py line 816): the first element after the
stable stage sort. -/
def adminFirstCall (session : List Call) : Option Call :=
  (List.insertionSort stageLE session).head?

/-- `first_timestamp` as built by src/api/campaign_metrics.py line 844:
the timestamp of the first element after sorting the session by stage. -/
def adminFirstTimestamp (session : List Call) : Option Int :=
  (adminFirstCall session).map Call.timestamp

/-- `last_timestamp` as built by src/api/campaign_metrics.py line 845:
the timestamp of the last element after sorting the session by stage. -/
def adminLastTimestamp (session : List Call) : Option Int :=
  (adminLatestCall session).map Call.timestamp

/-- Embedding of Python's `max(stages, key=lambda s: s.stage or 0)`
(src/api/call_lookup.py line 194): walk the list keeping the current
element and replacing it only when a strictly greater key appears, so the
first element attaining the maximum is kept. -/
def pyMaxByStage : List Call → Option Call
  | [] => none
  | c :: rest =>
    some (rest.foldl (fun acc x => if stageVal acc < stageVal x then x else acc) c)

/-- Maximum of `(stage or 0)` over a list of calls (0 for the empty list). -/
def maxStageVal : List Call → Nat
  | [] => 0
  | c :: rest => max (stageVal c) (maxStageVal rest)

/-- Minimum of `(stage or 0)` over a list of calls (0 for the empty list). -/
def minStageVal : List Call → Nat
  | [] => 0
  | [c] => stageVal c
  | c :: d :: rest => min (stageVal c) (minStageVal (d :: rest))

/-- The last element of the list attaining the maximal `(stage or 0)`:
keep the later element on ties. -/
def pickLast : List Call → Option Call
  | [] => none
  | c :: rest =>
    match pickLast rest with
    | none => some c
    | some m => if stageVal c ≤ stageVal m then some m else some c

/-- The first element of the list attaining the minimal `(stage or 0)`:
keep the earlier element on ties. -/
def pickFirst : List Call → Option Call
  | [] => none
  | c :: rest =>
    match pickFirst rest with
    | none => some c
    | some m => if stageVal c ≤ stageVal m then some c else some m

/-- The first element of the list attaining the maximal `(stage or 0)`:
keep the earlier element on ties. -/
def pickFirstMax : List Call → Option Call
  | [] => none
  | c :: rest =>
    match pickFirstMax rest with
    | none => some c
    | some m => if stageVal m ≤ stageVal c then some c else some m

/-- The minimum timestamp of a session (the value the spec calls
`first_timestamp`). -/
def specMinTimestamp (session : List Call) : Option Int :=
  (session.map Call.timestamp).min?

/-- The maximum timestamp of a session (the value the spec calls
`last_timestamp`). -/
def specMaxTimestamp (session : List Call) : Option Int :=
  (session.map Call.timestamp).max?

/-! ## Call-id grouping (src/api/call_lookup.py, src/api/campaign_metrics.py) -/

/-- Append call `c` to the group keyed `id`, creating the group at the end on
first sight of the key: the update-or-insert behaviour of a Python dict
keyed by `call_id`. -/
def addToGroups (groups : List (Int × List Call)) (id : Int) (c : Call) :
    List (Int × List Call) :=
  match groups with
  | [] => [(id, [c])]
  | (k, g) :: rest =>
    if k = id then (k, g ++ [c]) :: rest
    else (k, g) :: addToGroups rest id c

/-- One step of `group_calls_by_call_id`: records with null `call_id` are
skipped, others are appended to their key's group. -/
def groupByCallIdStep (groups : List (Int × List Call)) (c : Call) :
    List (Int × List Call) :=
  match c.callId with
  | none => groups
  | some id => addToGroups groups id c

/-- Modelled from the spec: `group_calls_by_call_id` is imported from
`utils.call` by src/api/call_lookup.py and src/api/campaign_metrics.py but its
definition is absent from the available sources.  Per spec §4.1 (Call-ID
Grouper): partition the records with non-null `call_id` into a mapping from
`call_id` to the list of records sharing it, preserving first-seen order of
call_ids and input order within each group; records with `call_id is None`
are not grouped by this function. -/
def group_calls_by_call_id (calls : List Call) : List (Int × List Call) :=
  calls.foldl groupByCallIdStep []

/-- The session list built by `fetch_call_data` (src/api/call_lookup.py lines
158-234): split the rows into those with and without a `call_id`, group the
former with `group_calls_by_call_id`, then append one singleton session per
null-`call_id` row after the grouped sessions. -/
def fetch_call_data_sessions (calls : List Call) : List (List Call) :=
  (group_calls_by_call_id (calls.filter (fun c => c.callId.isSome))).map Prod.snd
    ++ (calls.filter (fun c => c.callId.isNone)).map (fun c => [c])

/-! ## Category mappings and the client category resolver -/

/-- `CLIENT_CATEGORY_MAPPING` (src/utils/mappings.py lines 1-29), in source
order; `"repeatpitch"` maps to the empty string, the "ignore" sentinel. -/
def CLIENT_CATEGORY_MAPPING : List (String × String) :=
  [("spanishanswermachine", "Answering Machine"),
   ("answermachine", "Answering Machine"),
   ("dnc", "DNC"),
   ("dnq", "DNQ"),
   ("honeypot", "Honeypot"),
   ("unknown", "Unclear Response"),
   ("busy", "Call Back"),
   ("already", "Not Interested"),
   ("notinterested", "Not Interested"),
   ("rebuttal", "Not Interested"),
   ("donttransfer", "Not Interested"),
   ("qualified", "Qualified"),
   ("interested", "Qualified"),
   ("neutral", "Neutral"),
   ("inaudible", "Inaudible"),
   ("notresponding", "DAIR"),
   ("usersilent", "User Silent"),
   ("userhangup", "User Hangup"),
   ("repeatpitch", "")]

/-- Python `mapping.get(key, dflt)` over an association-list embedding of the
dictionary (keys are unique, so the first match is the dict entry). -/
def pyDictGet (m : List (String × String)) (key dflt : String) : String :=
  match m.find? (fun p => p.1 = key) with
  | some p => p.2
  | none => dflt

/-- Embedding of `resolve_client_category(original_category, call_data)`
(src/api/campaign_metrics.py lines 153-167): two transferred-overrides to
`"Neutral"` evaluated before the static `CLIENT_CATEGORY_MAPPING` lookup,
which defaults to the raw category itself. -/
def resolve_client_category (originalCategory : String) (transferred : Bool) : String :=
  if originalCategory = "already" ∧ transferred then "Neutral"
  else if originalCategory = "busy" ∧ transferred then "Neutral"
  else pyDictGet CLIENT_CATEGORY_MAPPING originalCategory originalCategory

/-- The static client mapping lookup without overrides, as used at
src/api/campaign_metrics.py line 974:
`CLIENT_CATEGORY_MAPPING.get(original_category, original_category)`. -/
def client_combined_category (originalCategory : String) : String :=
  pyDictGet CLIENT_CATEGORY_MAPPING originalCategory originalCategory

/-! ## Client dashboard category counts (src/api/campaign_metrics.py 396-414) -/

/-- Python truthiness of `call['category_name']`: `None` and `""` are falsy. -/
def pyTruthy : Option String → Bool
  | none => false
  | some s => if s = "" then false else true

/-- One step of the counting loop: increment `(count, transferred_count)` for
`cat`, inserting the key at the end on first sight (Python dict semantics). -/
def bumpCategory (counts : List (String × Nat × Nat)) (cat : String)
    (transferred : Bool) : List (String × Nat × Nat) :=
  match counts with
  | [] => [(cat, 1, if transferred then 1 else 0)]
  | (k, n, tn) :: rest =>
    if k = cat then (k, n + 1, tn + if transferred then 1 else 0) :: rest
    else (k, n, tn) :: bumpCategory rest cat transferred

/-- One iteration of the category-count loop of `get_client_campaign`
(src/api/campaign_metrics.py lines 396-414): for a call with a truthy
`category_name`, resolve the category with `resolve_client_category`, skip
empty-string resolutions, and bump `(count, transferred_count)` under the
resolved name. -/
def clientCountStep (counts : List (String × Nat × Nat)) (call : Call) :
    List (String × Nat × Nat) :=
  if pyTruthy call.responseCategory then
    let resolved := resolve_client_category (call.responseCategory.getD "") call.transferred
    if resolved = "" then counts
    else bumpCategory counts resolved call.transferred
  else counts

/-- The category counts accumulated over all base calls
(src/api/campaign_metrics.py lines 391-414). -/
def client_category_counts (calls : List Call) : List (String × Nat × Nat) :=
  calls.foldl clientCountStep []

/-! ## Rate helpers (src/api/stats.py 122-138, src/api/stats/voice_stats.py 96-112) -/

/-- Round-half-to-even on an exact rational, the rounding mode of Python's
builtin `round`. -/
def roundHalfEven (q : ℚ) : ℤ :=
  if Int.fract q < 1 / 2 then ⌊q⌋
  else if 1 / 2 < Int.fract q then ⌊q⌋ + 1
  else if ⌊q⌋ % 2 = 0 then ⌊q⌋ else ⌊q⌋ + 1

/-- Python `round(x, 2)` over exact rationals. -/
def pyRound2 (x : ℚ) : ℚ := (roundHalfEven (x * 100) : ℚ) / 100

/-- `calculate_transfer_rate(transferred, total)` (src/api/stats.py lines
122-126): `0.0` when `total == 0`, else `round((transferred / total) * 100, 2)`. -/
def calculate_transfer_rate (transferred total : Nat) : ℚ :=
  if total = 0 then 0 else pyRound2 (((transferred : ℚ) / (total : ℚ)) * 100)

/-- `calculate_qualified_rate(qualified, transferred)` (src/api/stats.py lines
128-132, src/api/stats/voice_stats.py lines 102-106): `0.0` when
`transferred == 0`, else `round((qualified / transferred) * 100, 2)`. -/
def calculate_qualified_rate (qualified transferred : Nat) : ℚ :=
  if transferred = 0 then 0 else pyRound2 (((qualified : ℚ) / (transferred : ℚ)) * 100)

/-- `calculate_null_voice_ratio(null_count, total)` (src/api/stats.py lines
134-138): `0.0` when `total == 0`, else `round((null_count / total) * 100, 2)`. -/
def calculate_null_voice_ratio (nullCount total : Nat) : ℚ :=
  if total = 0 then 0 else pyRound2 (((nullCount : ℚ) / (total : ℚ)) * 100)

/-! ## Qualified-transfer-rate code paths (C7) -/

/-- One row of the `final_stages` CTE in the transfer-stats SQL queries. -/
structure FinalStageRow where
  voiceName : Option String
  transferred : Bool
  responseCategory : Option String
deriving DecidableEq, Repr

/-- `qualified_originals` (src/api/stats/voice_stats.py lines 185-186): the
raw category labels whose `CLIENT_CATEGORY_MAPPING` image is `"Qualified"`. -/
def qualified_originals : List String :=
  (CLIENT_CATEGORY_MAPPING.filter (fun p => p.2 = "Qualified")).map Prod.fst

/-- `SUM(CASE WHEN p THEN 1 ELSE 0 END)` over the rows. -/
def sqlSumCase (p : FinalStageRow → Bool) (rows : List FinalStageRow) : Nat :=
  rows.foldl (fun acc r => acc + if p r then 1 else 0) 0

/-- `voiced_transferred` of `campaign_totals`:
`voice_name IS NOT NULL AND transferred`. -/
def voicedTransferredCount (rows : List FinalStageRow) : Nat :=
  sqlSumCase (fun r => r.voiceName.isSome && r.transferred) rows

/-- `qualified_transferred` in src/api/stats/voice_stats.py line 307:
`voice_name IS NOT NULL AND transferred AND response_category = ANY($1)` with
`$1 = qualified_originals` (NULL categories match nothing). -/
def qualifiedTransferredVoiceStats (rows : List FinalStageRow) : Nat :=
  sqlSumCase (fun r => r.voiceName.isSome && r.transferred &&
    (match r.responseCategory with
     | some cat => qualified_originals.contains cat
     | none => false)) rows

/-- `qualified_transferred` in src/api/stats.py line 529 (and voice_stats.py
line 519): `voice_name IS NOT NULL AND transferred AND
response_category = 'Qualified'`, a comparison of the raw category with the
literal string `'Qualified'`. -/
def qualifiedTransferredStats (rows : List FinalStageRow) : Nat :=
  sqlSumCase (fun r => r.voiceName.isSome && r.transferred &&
    (r.responseCategory == some "Qualified")) rows

/-- `qualified_transfer_rate` of the voice_stats.py path
(src/api/stats/voice_stats.py line 368): numerator from the
qualified-labels set, denominator the voiced transferred count. -/
def qualified_transfer_rate_voiceStats (rows : List FinalStageRow) : ℚ :=
  calculate_qualified_rate (qualifiedTransferredVoiceStats rows) (voicedTransferredCount rows)

/-- `qualified_transfer_rate` of the stats.py SQL-pushdown path
(src/api/stats.py line 592): numerator from the literal `'Qualified'`
comparison, denominator the voiced transferred count. -/
def qualified_transfer_rate_stats (rows : List FinalStageRow) : ℚ :=
  calculate_qualified_rate (qualifiedTransferredStats rows) (voicedTransferredCount rows)

/-! ## Transfer metrics (src/api/campaign_metrics.py lines 967-989) -/

/-- Output of `get_transfer_metrics`. -/
structure TransferMetrics where
  a_grade_transfers : Nat
  b_grade_transfers : Nat
  drop_offs : Nat
  total_calls : Nat
deriving DecidableEq, Repr

/-- One iteration of the metrics loop (src/api/campaign_metrics.py lines
972-982): map the raw category (`'' ` when null) through
`CLIENT_CATEGORY_MAPPING`, then classify the call as an A-grade transfer
(`Qualified` and transferred), B-grade transfer (non-`Qualified` and
transferred) or drop-off (everything else). -/
def transferMetricsStep (m : TransferMetrics) (call : Call) : TransferMetrics :=
  let combined := client_combined_category (call.responseCategory.getD "")
  if combined = "Qualified" ∧ call.transferred then
    { m with a_grade_transfers := m.a_grade_transfers + 1 }
  else if combined ≠ "Qualified" ∧ call.transferred then
    { m with b_grade_transfers := m.b_grade_transfers + 1 }
  else
    { m with drop_offs := m.drop_offs + 1 }

/-- Embedding of the metric computation of `get_transfer_metrics`
(src/api/campaign_metrics.py lines 967-989) over the list of
final-stage calls; `total_calls = len(latest_calls)`. -/
def get_transfer_metrics (latestCalls : List Call) : TransferMetrics :=
  { latestCalls.foldl transferMetricsStep ⟨0, 0, 0, 0⟩ with
      total_calls := latestCalls.length }

/-! ## C8: total rate computations -/

/-- C8: each rate function (transfer rate, qualified rate, null-voice ratio)
returns `0.0` when its denominator is `0` and otherwise
`round(100 * numerator / denominator, 2)`; the functions are total, so no
rate computation raises.  Boundary values from spec §8.6 are checked
concretely. -/
theorem rate_functions_zero_safe (n d : Nat) :
    (calculate_transfer_rate n d = if d = 0 then 0 else pyRound2 (100 * (n : ℚ) / d)) ∧
    (calculate_qualified_rate n d = if d = 0 then 0 else pyRound2 (100 * (n : ℚ) / d)) ∧
    (calculate_null_voice_ratio n d = if d = 0 then 0 else pyRound2 (100 * (n : ℚ) / d)) ∧
    calculate_transfer_rate 0 0 = 0 ∧
    calculate_transfer_rate 5 5 = 100 ∧
    calculate_transfer_rate 1 3 = 3333 / 100 := by
  refine ⟨?_, ?_, ?_, ?_, ?_, ?_⟩
  · unfold calculate_transfer_rate
    split
    · rfl
    · congr 1; ring
  · unfold calculate_qualified_rate
    split
    · rfl
    · congr 1; ring
  · unfold calculate_null_voice_ratio
    split
    · rfl
    · congr 1; ring
  · norm_num [calculate_transfer_rate]
  · norm_num [calculate_transfer_rate, pyRound2, roundHalfEven, Int.fract]
  · norm_num [calculate_transfer_rate, pyRound2, roundHalfEven, Int.fract]

/-! ## C5: client-facing category normalization -/

/-- C5: `resolve_client_category` returns `"Neutral"` for a transferred
`"already"` or `"busy"` call (overrides checked before the mapping lookup),
and otherwise performs `CLIENT_CATEGORY_MAPPING.get(raw, raw)`, so a raw
category absent from the mapping passes through unchanged. -/
theorem client_category_override_rules (cat : String) (t : Bool) :
    (cat = "already" → t = true → resolve_client_category cat t = "Neutral") ∧
    (cat = "busy" → t = true → resolve_client_category cat t = "Neutral") ∧
    (¬((cat = "already" ∨ cat = "busy") ∧ t = true) →
      resolve_client_category cat t = pyDictGet CLIENT_CATEGORY_MAPPING cat cat) ∧
    ((∀ p ∈ CLIENT_CATEGORY_MAPPING, p.1 ≠ cat) →
      ¬((cat = "already" ∨ cat = "busy") ∧ t = true) →
      resolve_client_category cat t = cat) := by
  refine ⟨?_, ?_, ?_, ?_⟩
  · intro hc ht
    subst hc; subst ht
    rfl
  · intro hc ht
    subst hc; subst ht
    rfl
  · intro h
    push_neg at h
    unfold resolve_client_category
    rw [if_neg, if_neg]
    · rintro ⟨hb, ht⟩
      exact h (Or.inr hb) ht
    · rintro ⟨ha, ht⟩
      exact h (Or.inl ha) ht
  · intro hmem h
    push_neg at h
    unfold resolve_client_category
    rw [if_neg, if_neg]
    · unfold pyDictGet
      rw [List.find?_eq_none.mpr]
      intro p hp
      simpa using hmem p hp
    · rintro ⟨hb, ht⟩
      exact h (Or.inr hb) ht
    · rintro ⟨ha, ht⟩
      exact h (Or.inl ha) ht

/-- Witness for C5: an unmapped category passes through unchanged. -/
theorem client_category_override_rules_witness :
    resolve_client_category "unmappedcategory" false = "unmappedcategory" :=
  (client_category_override_rules "unmappedcategory" false).2.2.2
    (by decide) (by decide)

/-! ## C6: empty-string categories are excluded from category counts -/

lemma bumpCategory_keys (counts : List (String × Nat × Nat)) (cat : String)
    (t : Bool) (k : String)
    (hk : k ∈ (bumpCategory counts cat t).map Prod.fst) :
    k ∈ counts.map Prod.fst ∨ k = cat := by
  induction counts with
  | nil =>
    simp only [bumpCategory, List.map_cons, List.map_nil, List.mem_cons,
      List.not_mem_nil, or_false] at hk
    exact Or.inr hk
  | cons e rest ih =>
    obtain ⟨ek, en, etn⟩ := e
    simp only [bumpCategory] at hk
    by_cases h : ek = cat
    · rw [if_pos h] at hk
      simp only [List.map_cons, List.mem_cons] at hk
      rcases hk with hk | hk
      · exact Or.inl (by simp only [List.map_cons, List.mem_cons]; exact Or.inl hk)
      · exact Or.inl (by simp only [List.map_cons, List.mem_cons]; exact Or.inr hk)
    · rw [if_neg h] at hk
      simp only [List.map_cons, List.mem_cons] at hk
      rcases hk with hk | hk
      · exact Or.inl (by simp only [List.map_cons, List.mem_cons]; exact Or.inl hk)
      · rcases ih hk with h2 | h2
        · exact Or.inl (by simp only [List.map_cons, List.mem_cons]; exact Or.inr h2)
        · exact Or.inr h2

lemma clientCountStep_keys (counts : List (String × Nat × Nat)) (call : Call)
    (h : ∀ k ∈ counts.map Prod.fst, k ≠ "") :
    ∀ k ∈ (clientCountStep counts call).map Prod.fst, k ≠ "" := by
  intro k hk
  unfold clientCountStep at hk
  by_cases ht : pyTruthy call.responseCategory
  · simp only [ht, if_true] at hk
    by_cases hres :
        resolve_client_category (call.responseCategory.getD "") call.transferred = ""
    · rw [if_pos hres] at hk
      exact h k hk
    · rw [if_neg hres] at hk
      rcases bumpCategory_keys _ _ _ _ hk with h2 | h2
      · exact h k h2
      · simpa [h2] using hres
  · simp only [ht, if_false] at hk
    exact h k hk

lemma clientCounts_fold_keys (calls : List Call) (acc : List (String × Nat × Nat))
    (h : ∀ k ∈ acc.map Prod.fst, k ≠ "") :
    ∀ k ∈ (calls.foldl clientCountStep acc).map Prod.fst, k ≠ "" := by
  induction calls generalizing acc with
  | nil => simpa using h
  | cons c cs ih =>
    simp only [List.foldl_cons]
    exact ih _ (clientCountStep_keys acc c h)

/-- C6: a record whose raw category resolves to the empty string under the
client-facing mapping is dropped from the category statistics: the empty
string is never a key of `client_category_counts`, and concretely a
`"repeatpitch"` record produces no category entry at all even though it is
present in the input. -/
theorem empty_string_category_excluded (calls : List Call) :
    "" ∉ (client_category_counts calls).map Prod.fst ∧
    client_category_counts [⟨"555", 0, none, some 1, false, some "repeatpitch", some "Ava"⟩] = [] ∧
    (⟨"555", 0, none, some 1, false, some "repeatpitch", some "Ava"⟩ : Call) ∈
      [(⟨"555", 0, none, some 1, false, some "repeatpitch", some "Ava"⟩ : Call)] := by
  refine ⟨?_, by decide, by decide⟩
  intro hmem
  exact clientCounts_fold_keys calls [] (by simp) "" hmem rfl

/-- Witness for C6 at a concrete input list. -/
theorem empty_string_category_excluded_witness :
    "" ∉ (client_category_counts
      [⟨"555", 0, none, some 1, false, some "repeatpitch", some "Ava"⟩]).map Prod.fst :=
  (empty_string_category_excluded
    [⟨"555", 0, none, some 1, false, some "repeatpitch", some "Ava"⟩]).1

/-! ## C10: transfer-metrics classification is exhaustive and exclusive -/

lemma transferMetrics_fold (calls : List Call) (m : TransferMetrics) :
    calls.foldl transferMetricsStep m =
      ⟨m.a_grade_transfers + calls.countP (fun c =>
          decide (client_combined_category (c.responseCategory.getD "") = "Qualified")
            && c.transferred),
        m.b_grade_transfers + calls.countP (fun c =>
          !(decide (client_combined_category (c.responseCategory.getD "") = "Qualified"))
            && c.transferred),
        m.drop_offs + calls.countP (fun c => !c.transferred),
        m.total_calls⟩ := by
  induction calls generalizing m with
  | nil => simp
  | cons c cs ih =>
    simp only [List.foldl_cons, List.countP_cons]
    rw [ih]
    unfold transferMetricsStep
    by_cases hq : client_combined_category (c.responseCategory.getD "") = "Qualified" <;>
      by_cases ht : c.transferred = true <;>
        simp [hq, ht] <;> omega

/-- C10: in `get_transfer_metrics` every final-stage call is counted in
exactly one of `a_grade_transfers` (transferred, combined category
`"Qualified"`), `b_grade_transfers` (transferred, any other combined
category) or `drop_offs` (not transferred), so the three counters always sum
to `total_calls`. -/
theorem transfer_metrics_partition (calls : List Call) :
    (get_transfer_metrics calls).a_grade_transfers
        + (get_transfer_metrics calls).b_grade_transfers
        + (get_transfer_metrics calls).drop_offs
      = (get_transfer_metrics calls).total_calls ∧
    (get_transfer_metrics calls).a_grade_transfers = calls.countP (fun c =>
        decide (client_combined_category (c.responseCategory.getD "") = "Qualified")
          && c.transferred) ∧
    (get_transfer_metrics calls).b_grade_transfers = calls.countP (fun c =>
        !(decide (client_combined_category (c.responseCategory.getD "") = "Qualified"))
          && c.transferred) ∧
    (get_transfer_metrics calls).drop_offs = calls.countP (fun c => !c.transferred) ∧
    (get_transfer_metrics calls).total_calls = calls.length := by
  have hsum : ∀ l : List Call,
      l.countP (fun c =>
        decide (client_combined_category (c.responseCategory.getD "") = "Qualified")
          && c.transferred)
      + l.countP (fun c =>
        !(decide (client_combined_category (c.responseCategory.getD "") = "Qualified"))
          && c.transferred)
      + l.countP (fun c => !c.transferred) = l.length := by
    intro l
    induction l with
    | nil => simp
    | cons c cs ih =>
      simp only [List.countP_cons, List.length_cons]
      by_cases hq : client_combined_category (c.responseCategory.getD "") = "Qualified" <;>
        by_cases ht : c.transferred = true <;>
          simp [hq, ht] <;> omega
  have heq : get_transfer_metrics calls =
      ⟨calls.countP (fun c =>
          decide (client_combined_category (c.responseCategory.getD "") = "Qualified")
            && c.transferred),
        calls.countP (fun c =>
          !(decide (client_combined_category (c.responseCategory.getD "") = "Qualified"))
            && c.transferred),
        calls.countP (fun c => !c.transferred),
        calls.length⟩ := by
    unfold get_transfer_metrics
    rw [transferMetrics_fold]
    simp
  rw [heq]
  exact ⟨hsum calls, rfl, rfl, rfl, rfl⟩

/-! ## C7: qualified transfer rate code paths -/

lemma sqlSumCase_eq_countP (p : FinalStageRow → Bool) (rows : List FinalStageRow) :
    sqlSumCase p rows = rows.countP p := by
  have h : ∀ (l : List FinalStageRow) (a : Nat),
      l.foldl (fun acc r => acc + if p r then 1 else 0) a = a + l.countP p := by
    intro l
    induction l with
    | nil => simp
    | cons r rs ih =>
      intro a
      simp only [List.foldl_cons, List.countP_cons, ih]
      by_cases hr : p r
      · simp [hr]
        omega
      · simp [hr]
  simpa using h rows 0

/-- Counterexample to C7: a single voiced, transferred final stage with raw
category `"qualified"` (a label that maps to the normalized `"Qualified"`
bucket).  The voice_stats.py path counts it and yields a 100% qualified
transfer rate; the stats.py SQL pushdown compares the raw category with the
literal `'Qualified'`, counts nothing, and yields 0%. -/
theorem qualified_rate_paths_diverge :
    qualified_transfer_rate_voiceStats [⟨some "Ava", true, some "qualified"⟩] = 100 ∧
    qualified_transfer_rate_stats [⟨some "Ava", true, some "qualified"⟩] = 0 ∧
    (100 : ℚ) ≠ 0 := by
  refine ⟨?_, ?_, by norm_num⟩
  · norm_num [qualified_transfer_rate_voiceStats, calculate_qualified_rate,
      qualifiedTransferredVoiceStats, voicedTransferredCount, sqlSumCase,
      qualified_originals, CLIENT_CATEGORY_MAPPING, pyRound2, roundHalfEven, Int.fract]
  · norm_num [qualified_transfer_rate_stats, calculate_qualified_rate,
      qualifiedTransferredStats, voicedTransferredCount, sqlSumCase,
      (show ("qualified" : String) ≠ "Qualified" by decide), pyRound2,
      roundHalfEven, Int.fract]

/-- C7 (amended): in both code paths the denominator of
`qualified_transfer_rate` is the voiced transferred count; the
voice_stats.py path's numerator counts transferred final stages whose raw
category lies in the qualified-labels set `{"qualified", "interested"}`
derived from `CLIENT_CATEGORY_MAPPING`, while the stats.py SQL pushdown's
numerator counts those whose raw category is the literal string
`"Qualified"`, which is not itself a qualified label. -/
theorem qualified_rate_semantics (rows : List FinalStageRow) :
    qualified_originals = ["qualified", "interested"] ∧
    "Qualified" ∉ qualified_originals ∧
    (∀ cat : String,
      qualified_originals.contains cat = true ↔ (cat = "qualified" ∨ cat = "interested")) ∧
    qualified_transfer_rate_voiceStats rows =
      calculate_qualified_rate
        (rows.countP (fun r => r.voiceName.isSome && r.transferred &&
          (match r.responseCategory with
           | some cat => qualified_originals.contains cat
           | none => false)))
        (rows.countP (fun r => r.voiceName.isSome && r.transferred)) ∧
    qualified_transfer_rate_stats rows =
      calculate_qualified_rate
        (rows.countP (fun r => r.voiceName.isSome && r.transferred &&
          (r.responseCategory == some "Qualified")))
        (rows.countP (fun r => r.voiceName.isSome && r.transferred)) := by
  refine ⟨by decide, by decide, ?_, ?_, ?_⟩
  · intro cat
    simp [qualified_originals, CLIENT_CATEGORY_MAPPING, List.contains]
  · unfold qualified_transfer_rate_voiceStats qualifiedTransferredVoiceStats
      voicedTransferredCount
    rw [sqlSumCase_eq_countP, sqlSumCase_eq_countP]
  · unfold qualified_transfer_rate_stats qualifiedTransferredStats
      voicedTransferredCount
    rw [sqlSumCase_eq_countP, sqlSumCase_eq_countP]

/-- Witness for C7 (amended), instantiating the qualified-label
characterization at the label `"interested"`. -/
theorem qualified_rate_semantics_witness :
    qualified_originals.contains "interested" = true :=
  ((qualified_rate_semantics []).2.2.1 "interested").mpr (Or.inr rfl)

/-! ## C3: call-id grouping completeness -/

open List in
lemma addToGroups_flatten_perm (groups : List (Int × List Call)) (id : Int) (c : Call) :
    ((addToGroups groups id c).map Prod.snd).flatten ~
      ((groups.map Prod.snd).flatten ++ [c]) := by
  induction groups with
  | nil => simp [addToGroups]
  | cons e rest ih =>
    obtain ⟨k, g⟩ := e
    by_cases h : k = id
    · simp only [addToGroups, if_pos h, List.map_cons, List.flatten_cons]
      calc (g ++ [c]) ++ (rest.map Prod.snd).flatten
          = g ++ ([c] ++ (rest.map Prod.snd).flatten) := by rw [List.append_assoc]
        _ ~ g ++ ((rest.map Prod.snd).flatten ++ [c]) :=
            (List.perm_append_comm).append_left g
        _ = (g ++ (rest.map Prod.snd).flatten) ++ [c] := by rw [List.append_assoc]
    · simp only [addToGroups, if_neg h, List.map_cons, List.flatten_cons]
      calc g ++ ((addToGroups rest id c).map Prod.snd).flatten
          ~ g ++ ((rest.map Prod.snd).flatten ++ [c]) := ih.append_left g
        _ = (g ++ (rest.map Prod.snd).flatten) ++ [c] := by rw [List.append_assoc]

open List in
lemma groupFold_flatten_perm (calls : List Call) (groups : List (Int × List Call)) :
    ((calls.foldl groupByCallIdStep groups).map Prod.snd).flatten ~
      ((groups.map Prod.snd).flatten ++ calls.filter (fun c => c.callId.isSome)) := by
  induction calls generalizing groups with
  | nil => simp
  | cons c cs ih =>
    simp only [List.foldl_cons]
    cases hc : c.callId with
    | none =>
      have hstep : groupByCallIdStep groups c = groups := by
        unfold groupByCallIdStep
        rw [hc]
      rw [hstep, List.filter_cons_of_neg (by simp [hc])]
      exact ih groups
    | some id =>
      have hstep : groupByCallIdStep groups c = addToGroups groups id c := by
        unfold groupByCallIdStep
        rw [hc]
      rw [hstep, List.filter_cons_of_pos (by simp [hc])]
      calc ((cs.foldl groupByCallIdStep (addToGroups groups id c)).map Prod.snd).flatten
          ~ ((addToGroups groups id c).map Prod.snd).flatten
              ++ cs.filter (fun x => x.callId.isSome) := ih _
        _ ~ ((groups.map Prod.snd).flatten ++ [c])
              ++ cs.filter (fun x => x.callId.isSome) :=
            (addToGroups_flatten_perm groups id c).append_right _
        _ = (groups.map Prod.snd).flatten
              ++ (c :: cs.filter (fun x => x.callId.isSome)) := by
            rw [List.append_assoc]
            rfl

lemma addToGroups_keyed (groups : List (Int × List Call)) (id : Int) (c : Call)
    (hc : c.callId = some id)
    (h : ∀ g ∈ groups, ∀ x ∈ g.2, x.callId = some g.1) :
    ∀ g ∈ addToGroups groups id c, ∀ x ∈ g.2, x.callId = some g.1 := by
  induction groups with
  | nil =>
    intro g hg x hx
    simp [addToGroups] at hg
    subst hg
    simp at hx
    subst hx
    exact hc
  | cons e rest ih =>
    obtain ⟨k, gl⟩ := e
    intro g hg x hx
    simp only [addToGroups] at hg
    by_cases hk : k = id
    · rw [if_pos hk] at hg
      rcases List.mem_cons.mp hg with hg | hg
      · subst hg
        simp only at hx
        rcases List.mem_append.mp hx with hx | hx
        · exact h (k, gl) (List.mem_cons_self _ _) x hx
        · simp at hx
          subst hx
          rw [hc, hk]
      · exact h g (List.mem_cons_of_mem _ hg) x hx
    · rw [if_neg hk] at hg
      rcases List.mem_cons.mp hg with hg | hg
      · subst hg
        exact h (k, gl) (List.mem_cons_self _ _) x hx
      · exact ih (fun g' hg' => h g' (List.mem_cons_of_mem _ hg')) g hg x hx

lemma groupFold_keyed (calls : List Call) (groups : List (Int × List Call))
    (h : ∀ g ∈ groups, ∀ x ∈ g.2, x.callId = some g.1) :
    ∀ g ∈ calls.foldl groupByCallIdStep groups, ∀ x ∈ g.2, x.callId = some g.1 := by
  induction calls generalizing groups with
  | nil => simpa using h
  | cons c cs ih =>
    simp only [List.foldl_cons]
    cases hc : c.callId with
    | none =>
      have hstep : groupByCallIdStep groups c = groups := by
        unfold groupByCallIdStep; rw [hc]
      rw [hstep]
      exact ih groups h
    | some id =>
      have hstep : groupByCallIdStep groups c = addToGroups groups id c := by
        unfold groupByCallIdStep; rw [hc]
      rw [hstep]
      exact ih _ (addToGroups_keyed groups id c hc h)

open List in
/-- C3: the sessions built by `fetch_call_data` — call-id groups followed by
one singleton session per null-`call_id` record — contain exactly the input
records, none dropped or duplicated; null-`call_id` records are never
grouped (each becomes a singleton session appended after the grouped
sessions), and every grouped session's members share that group's
`call_id`. -/
theorem call_id_grouping_complete (calls : List Call) :
    (fetch_call_data_sessions calls).flatten ~ calls ∧
    (∀ c ∈ calls, c.callId = none →
      [c] ∈ (calls.filter (fun x => x.callId.isNone)).map (fun x => [x])) ∧
    fetch_call_data_sessions calls =
      (group_calls_by_call_id (calls.filter (fun c => c.callId.isSome))).map Prod.snd
        ++ (calls.filter (fun c => c.callId.isNone)).map (fun c => [c]) ∧
    (∀ g ∈ group_calls_by_call_id (calls.filter (fun c => c.callId.isSome)),
      ∀ x ∈ g.2, x.callId = some g.1) := by
  refine ⟨?_, ?_, rfl, ?_⟩
  · unfold fetch_call_data_sessions group_calls_by_call_id
    rw [List.flatten_append]
    have h1 : (((calls.filter (fun c => c.callId.isSome)).foldl
        groupByCallIdStep []).map Prod.snd).flatten ~
        calls.filter (fun c => c.callId.isSome) := by
      have := groupFold_flatten_perm (calls.filter (fun c => c.callId.isSome)) []
      simp only [List.map_nil, List.flatten_nil, List.nil_append] at this
      calc (((calls.filter (fun c => c.callId.isSome)).foldl
              groupByCallIdStep []).map Prod.snd).flatten
          ~ (calls.filter (fun c => c.callId.isSome)).filter
              (fun c => c.callId.isSome) := this
        _ = calls.filter (fun c => c.callId.isSome) := by
            rw [List.filter_filter]
            congr 1
            funext a
            exact Bool.and_self _
    have h2 : ((calls.filter (fun c => c.callId.isNone)).map (fun c => [c])).flatten =
        calls.filter (fun c => c.callId.isNone) := by
      induction calls.filter (fun c => c.callId.isNone) with
      | nil => rfl
      | cons x xs ih => simp [ih]
    rw [h2]
    calc (((calls.filter (fun c => c.callId.isSome)).foldl
            groupByCallIdStep []).map Prod.snd).flatten
          ++ calls.filter (fun c => c.callId.isNone)
        ~ calls.filter (fun c => c.callId.isSome)
            ++ calls.filter (fun c => c.callId.isNone) := h1.append_right _
      _ ~ calls := by
          have hneg : (fun c : Call => c.callId.isNone) =
              (fun c : Call => !(c.callId.isSome)) := by
            funext c
            cases c.callId <;> rfl
          rw [hneg]
          exact List.filter_append_perm _ calls
  · intro c hc hnone
    exact List.mem_map.mpr ⟨c, List.mem_filter.mpr ⟨hc, by simp [hnone]⟩, rfl⟩
  · exact groupFold_keyed _ [] (by simp)

/-- Witness for C3: a null-`call_id` record becomes a singleton session. -/
theorem call_id_grouping_complete_witness :
    [(⟨"5", 1, none, some 1, false, none, none⟩ : Call)] ∈
      (([(⟨"5", 1, none, some 1, false, none, none⟩ : Call)].filter
        (fun x => x.callId.isNone)).map (fun x => [x])) :=
  (call_id_grouping_complete [⟨"5", 1, none, some 1, false, none, none⟩]).2.1
    ⟨"5", 1, none, some 1, false, none, none⟩ (by decide) rfl

/-! ## Stability of the stage sort: C2 and C4 -/

lemma orderedInsert_ne_nil (c : Call) (t : List Call) :
    List.orderedInsert stageLE c t ≠ [] := by
  cases t with
  | nil => simp [List.orderedInsert]
  | cons b t' =>
    simp only [List.orderedInsert]
    split <;> simp

lemma getLast?_mem_of_eq (l : List Call) (m : Call) (h : l.getLast? = some m) :
    m ∈ l := by
  induction l with
  | nil => simp at h
  | cons a l' ih =>
    cases l' with
    | nil =>
      simp at h
      simp [h]
    | cons b l'' =>
      rw [List.getLast?_cons_cons] at h
      exact List.mem_cons_of_mem a (ih h)

lemma getLast?_cons_of_ne_nil (b : Call) (l : List Call) (h : l ≠ []) :
    (b :: l).getLast? = l.getLast? := by
  cases l with
  | nil => exact absurd rfl h
  | cons x xs => rw [List.getLast?_cons_cons]

lemma getLast?_orderedInsert (c : Call) (t : List Call) (hs : List.Sorted stageLE t) :
    (List.orderedInsert stageLE c t).getLast? =
      match t.getLast? with
      | none => some c
      | some m => if stageVal c ≤ stageVal m then some m else some c := by
  induction t with
  | nil => simp [List.orderedInsert]
  | cons b t' ih =>
    have hb : ∀ x ∈ t', stageLE b x := (List.sorted_cons.mp hs).1
    have hs' : List.Sorted stageLE t' := (List.sorted_cons.mp hs).2
    simp only [List.orderedInsert]
    by_cases h : stageLE c b
    · rw [if_pos h, List.getLast?_cons_cons]
      cases hlast : (b :: t').getLast? with
      | none => simp at hlast
      | some m =>
        have hm : m ∈ b :: t' := getLast?_mem_of_eq _ _ hlast
        have hcm : stageVal c ≤ stageVal m := by
          rcases List.mem_cons.mp hm with hm | hm
          · exact hm ▸ h
          · exact Nat.le_trans h (hb m hm)
        simp [hcm]
    · rw [if_neg h]
      cases t' with
      | nil =>
        have hcb : ¬ stageVal c ≤ stageVal b := h
        simp [List.orderedInsert, hcb, List.getLast?_cons_cons, List.getLast?_singleton]
      | cons d t'' =>
        rw [getLast?_cons_of_ne_nil b _ (orderedInsert_ne_nil c (d :: t''))]
        rw [ih hs']
        rw [List.getLast?_cons_cons]

lemma adminLatestCall_eq_pickLast (s : List Call) :
    adminLatestCall s = pickLast s := by
  induction s with
  | nil => rfl
  | cons c rest ih =>
    unfold adminLatestCall at *
    simp only [List.insertionSort]
    rw [getLast?_orderedInsert c _ (List.sorted_insertionSort stageLE rest)]
    rw [ih]
    rfl

lemma le_maxStageVal (s : List Call) (x : Call) (hx : x ∈ s) :
    stageVal x ≤ maxStageVal s := by
  induction s with
  | nil => simp at hx
  | cons c rest ih =>
    rcases List.mem_cons.mp hx with hx | hx
    · subst hx
      exact Nat.le_max_left _ _
    · exact Nat.le_trans (ih hx) (Nat.le_max_right _ _)

lemma pickLast_isSome (c : Call) (rest : List Call) :
    ∃ m, pickLast (c :: rest) = some m := by
  cases hp : pickLast rest with
  | none => exact ⟨c, by simp only [pickLast, hp]⟩
  | some m =>
    by_cases hcm : stageVal c ≤ stageVal m
    · exact ⟨m, by simp only [pickLast, hp, if_pos hcm]⟩
    · exact ⟨c, by simp only [pickLast, hp, if_neg hcm]⟩

lemma pickLast_eq_none_iff (s : List Call) : pickLast s = none ↔ s = [] := by
  cases s with
  | nil => simp [pickLast]
  | cons c rest =>
    obtain ⟨m, hm⟩ := pickLast_isSome c rest
    simp [hm]

lemma pickLast_stage (s : List Call) :
    ∀ m, pickLast s = some m → stageVal m = maxStageVal s := by
  induction s with
  | nil => intro m h; simp [pickLast] at h
  | cons c rest ih =>
    intro m h
    cases hp : pickLast rest with
    | none =>
      have hrest : rest = [] := (pickLast_eq_none_iff rest).mp hp
      subst hrest
      simp only [pickLast] at h
      cases h
      simp only [maxStageVal]
      omega
    | some m' =>
      have hm' : stageVal m' = maxStageVal rest := ih m' hp
      simp only [pickLast, hp] at h
      by_cases hcm : stageVal c ≤ stageVal m'
      · rw [if_pos hcm] at h
        cases h
        simp only [maxStageVal]
        omega
      · rw [if_neg hcm] at h
        cases h
        simp only [maxStageVal]
        omega

lemma pickLast_eq_findRev (s : List Call) :
    pickLast s = (s.reverse).find? (fun c => stageVal c = maxStageVal s) := by
  induction s with
  | nil => rfl
  | cons c rest ih =>
    cases hp : pickLast rest with
    | none =>
      have hrest : rest = [] := (pickLast_eq_none_iff rest).mp hp
      subst hrest
      have hmax : maxStageVal [c] = stageVal c := by
        simp only [maxStageVal]; omega
      simp [pickLast, hmax]
    | some m =>
      have hm : stageVal m = maxStageVal rest := pickLast_stage rest m hp
      simp only [pickLast, hp, List.reverse_cons, List.find?_append]
      by_cases hcm : stageVal c ≤ stageVal m
      · rw [if_pos hcm]
        have hmax : maxStageVal (c :: rest) = maxStageVal rest := by
          simp only [maxStageVal]; omega
        rw [hmax, ← ih, hp]
        simp
      · rw [if_neg hcm]
        have hmax : maxStageVal (c :: rest) = stageVal c := by
          simp only [maxStageVal]; omega
        rw [hmax]
        have hnone : rest.reverse.find? (fun x => stageVal x = stageVal c) = none := by
          rw [List.find?_eq_none]
          intro x hx
          have hle : stageVal x ≤ maxStageVal rest :=
            le_maxStageVal rest x (List.mem_reverse.mp hx)
          simp only [decide_eq_true_eq]
          omega
        rw [hnone]
        simp

lemma head?_orderedInsert (c : Call) (t : List Call) :
    (List.orderedInsert stageLE c t).head? =
      match t.head? with
      | none => some c
      | some b => if stageVal c ≤ stageVal b then some c else some b := by
  cases t with
  | nil => simp [List.orderedInsert]
  | cons b t' =>
    simp only [List.orderedInsert, List.head?_cons]
    by_cases h : stageLE c b
    · rw [if_pos h]
      have hcb : stageVal c ≤ stageVal b := h
      simp [hcb]
    · rw [if_neg h]
      have hcb : ¬ stageVal c ≤ stageVal b := h
      simp [hcb]

lemma adminFirstCall_eq_pickFirst (s : List Call) :
    adminFirstCall s = pickFirst s := by
  induction s with
  | nil => rfl
  | cons c rest ih =>
    unfold adminFirstCall at *
    simp only [List.insertionSort]
    rw [head?_orderedInsert, ih]
    rfl

lemma minStageVal_le (s : List Call) (x : Call) (hx : x ∈ s) :
    minStageVal s ≤ stageVal x := by
  induction s with
  | nil => simp at hx
  | cons c rest ih =>
    cases rest with
    | nil =>
      simp at hx
      subst hx
      simp [minStageVal]
    | cons d rest' =>
      simp only [minStageVal]
      rcases List.mem_cons.mp hx with hx | hx
      · subst hx
        exact Nat.min_le_left _ _
      · exact Nat.le_trans (Nat.min_le_right _ _) (ih hx)

lemma pickFirst_isSome (c : Call) (rest : List Call) :
    ∃ m, pickFirst (c :: rest) = some m := by
  cases hp : pickFirst rest with
  | none => exact ⟨c, by simp only [pickFirst, hp]⟩
  | some m =>
    by_cases hcm : stageVal c ≤ stageVal m
    · exact ⟨c, by simp only [pickFirst, hp, if_pos hcm]⟩
    · exact ⟨m, by simp only [pickFirst, hp, if_neg hcm]⟩

lemma pickFirst_eq_none_iff (s : List Call) : pickFirst s = none ↔ s = [] := by
  cases s with
  | nil => simp [pickFirst]
  | cons c rest =>
    obtain ⟨m, hm⟩ := pickFirst_isSome c rest
    simp [hm]

lemma pickFirst_stage (s : List Call) :
    ∀ m, pickFirst s = some m → stageVal m = minStageVal s := by
  induction s with
  | nil => intro m h; simp [pickFirst] at h
  | cons c rest ih =>
    intro m h
    cases hp : pickFirst rest with
    | none =>
      have hrest : rest = [] := (pickFirst_eq_none_iff rest).mp hp
      subst hrest
      simp only [pickFirst] at h
      cases h
      simp [minStageVal]
    | some m' =>
      have hm' : stageVal m' = minStageVal rest := ih m' hp
      have hrest : rest ≠ [] := by
        intro he
        subst he
        simp [pickFirst] at hp
      obtain ⟨d, rest', hde⟩ : ∃ d rest', rest = d :: rest' := by
        cases rest with
        | nil => exact absurd rfl hrest
        | cons d rest' => exact ⟨d, rest', rfl⟩
      simp only [pickFirst, hp] at h
      by_cases hcm : stageVal c ≤ stageVal m'
      · rw [if_pos hcm] at h
        cases h
        subst hde
        simp only [minStageVal]
        omega
      · rw [if_neg hcm] at h
        cases h
        subst hde
        simp only [minStageVal]
        omega

lemma pickFirst_eq_find (s : List Call) :
    pickFirst s = s.find? (fun c => stageVal c = minStageVal s) := by
  induction s with
  | nil => rfl
  | cons c rest ih =>
    cases hp : pickFirst rest with
    | none =>
      have hrest : rest = [] := (pickFirst_eq_none_iff rest).mp hp
      subst hrest
      have hmin : minStageVal [c] = stageVal c := by
        simp [minStageVal]
      simp [pickFirst, hmin]
    | some m =>
      have hm : stageVal m = minStageVal rest := pickFirst_stage rest m hp
      have hrest : rest ≠ [] := by
        intro he
        subst he
        simp [pickFirst] at hp
      obtain ⟨d, rest', hde⟩ : ∃ d rest', rest = d :: rest' := by
        cases rest with
        | nil => exact absurd rfl hrest
        | cons d rest' => exact ⟨d, rest', rfl⟩
      simp only [pickFirst, hp]
      by_cases hcm : stageVal c ≤ stageVal m
      · rw [if_pos hcm]
        have hmin : minStageVal (c :: rest) = stageVal c := by
          subst hde
          simp only [minStageVal]
          omega
        rw [hmin]
        rw [List.find?_cons_of_pos _ (by simp)]
      · rw [if_neg hcm]
        have hmin : minStageVal (c :: rest) = minStageVal rest := by
          subst hde
          simp only [minStageVal]
          omega
        rw [hmin]
        rw [List.find?_cons_of_neg _ (by simp; omega), ← ih, hp]

lemma pyMax_foldl (l : List Call) (acc : Call) :
    l.foldl (fun a x => if stageVal a < stageVal x then x else a) acc =
      match pickFirstMax l with
      | none => acc
      | some m => if stageVal acc < stageVal m then m else acc := by
  induction l generalizing acc with
  | nil => rfl
  | cons x l' ih =>
    simp only [List.foldl_cons, ih]
    cases hpl : pickFirstMax l' with
    | none => simp only [pickFirstMax, hpl]
    | some m =>
      simp only [pickFirstMax, hpl]
      by_cases h2 : stageVal m ≤ stageVal x
      · rw [if_pos h2]
        simp only []
        by_cases h1 : stageVal acc < stageVal x
        · rw [if_pos h1]
          have hxm : ¬ stageVal x < stageVal m := by omega
          rw [if_neg hxm]
        · rw [if_neg h1]
          have hacc : ¬ stageVal acc < stageVal m := by omega
          rw [if_neg hacc]
      · rw [if_neg h2]
        simp only []
        by_cases h1 : stageVal acc < stageVal x
        · rw [if_pos h1]
          have hxm : stageVal x < stageVal m := by omega
          have hacc : stageVal acc < stageVal m := by omega
          rw [if_pos hxm, if_pos hacc]
        · rw [if_neg h1]

lemma pickFirstMax_isSome (c : Call) (rest : List Call) :
    ∃ m, pickFirstMax (c :: rest) = some m := by
  cases hp : pickFirstMax rest with
  | none => exact ⟨c, by simp only [pickFirstMax, hp]⟩
  | some m =>
    by_cases hcm : stageVal m ≤ stageVal c
    · exact ⟨c, by simp only [pickFirstMax, hp, if_pos hcm]⟩
    · exact ⟨m, by simp only [pickFirstMax, hp, if_neg hcm]⟩

lemma pickFirstMax_eq_none_iff (s : List Call) : pickFirstMax s = none ↔ s = [] := by
  cases s with
  | nil => simp [pickFirstMax]
  | cons c rest =>
    obtain ⟨m, hm⟩ := pickFirstMax_isSome c rest
    simp [hm]

lemma pickFirstMax_stage (s : List Call) :
    ∀ m, pickFirstMax s = some m → stageVal m = maxStageVal s := by
  induction s with
  | nil => intro m h; simp [pickFirstMax] at h
  | cons c rest ih =>
    intro m h
    cases hp : pickFirstMax rest with
    | none =>
      have hrest : rest = [] := (pickFirstMax_eq_none_iff rest).mp hp
      subst hrest
      simp only [pickFirstMax] at h
      cases h
      simp only [maxStageVal]
      omega
    | some m' =>
      have hm' : stageVal m' = maxStageVal rest := ih m' hp
      simp only [pickFirstMax, hp] at h
      by_cases hcm : stageVal m' ≤ stageVal c
      · rw [if_pos hcm] at h
        cases h
        simp only [maxStageVal]
        omega
      · rw [if_neg hcm] at h
        cases h
        simp only [maxStageVal]
        omega

lemma pickFirstMax_eq_find (s : List Call) :
    pickFirstMax s = s.find? (fun c => stageVal c = maxStageVal s) := by
  induction s with
  | nil => rfl
  | cons c rest ih =>
    cases hp : pickFirstMax rest with
    | none =>
      have hrest : rest = [] := (pickFirstMax_eq_none_iff rest).mp hp
      subst hrest
      have hmax : maxStageVal [c] = stageVal c := by
        simp only [maxStageVal]; omega
      simp [pickFirstMax, hmax]
    | some m =>
      have hm : stageVal m = maxStageVal rest := pickFirstMax_stage rest m hp
      simp only [pickFirstMax, hp]
      by_cases hcm : stageVal m ≤ stageVal c
      · rw [if_pos hcm]
        have hmax : maxStageVal (c :: rest) = stageVal c := by
          simp only [maxStageVal]; omega
        rw [hmax]
        rw [List.find?_cons_of_pos _ (by simp)]
      · rw [if_neg hcm]
        have hmax : maxStageVal (c :: rest) = maxStageVal rest := by
          simp only [maxStageVal]; omega
        rw [hmax]
        rw [List.find?_cons_of_neg _ (by simp; omega), ← ih, hp]

lemma pyMaxByStage_eq_find (s : List Call) :
    pyMaxByStage s = s.find? (fun c => stageVal c = maxStageVal s) := by
  cases s with
  | nil => rfl
  | cons c rest =>
    rw [← pickFirstMax_eq_find]
    simp only [pyMaxByStage]
    rw [pyMax_foldl]
    cases hp : pickFirstMax rest with
    | none =>
      have hrest : rest = [] := (pickFirstMax_eq_none_iff rest).mp hp
      subst hrest
      rfl
    | some m =>
      simp only [pickFirstMax, hp]
      split_ifs <;> first | rfl | (exfalso; omega)

lemma adminLatestCall_eq_findRev (s : List Call) :
    adminLatestCall s = (s.reverse).find? (fun c => stageVal c = maxStageVal s) := by
  rw [adminLatestCall_eq_pickLast, pickLast_eq_findRev]

/-- C2 (amended): every non-empty session has a selected final stage that
attains the maximum `(stage or 0)`, but the tie-break differs by call site:
`sorted(session, key=stage)[-1]` (campaign_metrics.py) selects the LAST
record in input order attaining the maximum, while
`max(stages, key=stage)` (call_lookup.py) selects the FIRST such record. -/
theorem final_stage_tie_break (s : List Call) (h : s ≠ []) :
    adminLatestCall s = (s.reverse).find? (fun c => stageVal c = maxStageVal s) ∧
    pyMaxByStage s = s.find? (fun c => stageVal c = maxStageVal s) ∧
    (∃ m, adminLatestCall s = some m ∧ m ∈ s ∧ stageVal m = maxStageVal s) ∧
    (∃ m, pyMaxByStage s = some m ∧ m ∈ s ∧ stageVal m = maxStageVal s) := by
  refine ⟨adminLatestCall_eq_findRev s, pyMaxByStage_eq_find s, ?_, ?_⟩
  · rw [adminLatestCall_eq_pickLast]
    cases hp : pickLast s with
    | none => exact absurd ((pickLast_eq_none_iff s).mp hp) h
    | some m =>
      refine ⟨m, rfl, ?_, pickLast_stage s m hp⟩
      rw [pickLast_eq_findRev] at hp
      exact List.mem_reverse.mp (List.mem_of_find?_eq_some hp)
  · rw [pyMaxByStage_eq_find]
    cases hp : s.find? (fun c => stageVal c = maxStageVal s) with
    | none =>
      exfalso
      cases s with
      | nil => exact h rfl
      | cons c rest =>
        rw [← pyMaxByStage_eq_find] at hp
        simp [pyMaxByStage] at hp
    | some m =>
      refine ⟨m, rfl, List.mem_of_find?_eq_some hp, ?_⟩
      have := List.find?_some hp
      simpa using this

/-- Counterexample to C2 as stated: on a session with two records tied at the
maximum stage, the `max(...)` site of call_lookup.py selects the FIRST tied
record, not the last one in input order. -/
theorem final_stage_tie_break_counterexample :
    pyMaxByStage [⟨"555", 0, none, some 5, false, none, none⟩,
        ⟨"555", 10, none, some 5, false, none, none⟩]
      = some ⟨"555", 0, none, some 5, false, none, none⟩ ∧
    adminLatestCall [⟨"555", 0, none, some 5, false, none, none⟩,
        ⟨"555", 10, none, some 5, false, none, none⟩]
      = some ⟨"555", 10, none, some 5, false, none, none⟩ ∧
    (⟨"555", 0, none, some 5, false, none, none⟩ : Call) ≠
      ⟨"555", 10, none, some 5, false, none, none⟩ := by
  refine ⟨by decide, by decide, by decide⟩

/-- Witness for C2 (amended) at a concrete two-record session. -/
theorem final_stage_tie_break_witness :
    adminLatestCall [⟨"555", 0, none, some 5, false, none, none⟩,
        ⟨"555", 10, none, some 5, false, none, none⟩] =
      (([⟨"555", 0, none, some 5, false, none, none⟩,
        ⟨"555", 10, none, some 5, false, none, none⟩] : List Call).reverse).find?
        (fun c => stageVal c = maxStageVal
          [⟨"555", 0, none, some 5, false, none, none⟩,
           ⟨"555", 10, none, some 5, false, none, none⟩]) :=
  (final_stage_tie_break _ (by decide)).1

/-- Counterexample to C4 as stated: in the admin dashboard, `first_timestamp`
is the timestamp of the first element after sorting by stage, not the minimum
timestamp: with stage order opposite to timestamp order they differ. -/
theorem session_timestamps_counterexample :
    adminFirstTimestamp [⟨"555", 100, none, some 1, false, none, none⟩,
        ⟨"555", 50, none, some 2, false, none, none⟩] = some 100 ∧
    specMinTimestamp [⟨"555", 100, none, some 1, false, none, none⟩,
        ⟨"555", 50, none, some 2, false, none, none⟩] = some 50 ∧
    adminLastTimestamp [⟨"555", 100, none, some 1, false, none, none⟩,
        ⟨"555", 50, none, some 2, false, none, none⟩] = some 50 ∧
    specMaxTimestamp [⟨"555", 100, none, some 1, false, none, none⟩,
        ⟨"555", 50, none, some 2, false, none, none⟩] = some 100 ∧
    (100 : Int) ≠ 50 := by
  refine ⟨by decide, by decide, by decide, by decide, by decide⟩

/-- C4 (amended): in the admin dashboard (campaign_metrics.py lines 812-850)
`first_timestamp` is the timestamp of the first record in input order
attaining the minimal `(stage or 0)` and `last_timestamp` the timestamp of
the last record in input order attaining the maximal `(stage or 0)` — the
endpoints of the stable stage sort — not the min/max of the timestamps. -/
theorem session_timestamps_by_stage_sort (s : List Call) (h : s ≠ []) :
    adminFirstTimestamp s =
      (s.find? (fun c => stageVal c = minStageVal s)).map Call.timestamp ∧
    adminLastTimestamp s =
      ((s.reverse).find? (fun c => stageVal c = maxStageVal s)).map Call.timestamp ∧
    (∃ v, adminFirstTimestamp s = some v) := by
  refine ⟨?_, ?_, ?_⟩
  · unfold adminFirstTimestamp
    rw [adminFirstCall_eq_pickFirst, pickFirst_eq_find]
  · unfold adminLastTimestamp
    rw [adminLatestCall_eq_findRev]
  · unfold adminFirstTimestamp
    rw [adminFirstCall_eq_pickFirst]
    cases hp : pickFirst s with
    | none => exact absurd ((pickFirst_eq_none_iff s).mp hp) h
    | some m => exact ⟨m.timestamp, rfl⟩

/-! ## Time-window grouping: C1 and C9 -/

lemma splitSessions_cons_pos (w : Int) (c d : Call) (rest : List Call)
    (h : d.number = c.number ∧ d.timestamp - c.timestamp ≤ w) :
    splitSessions w c (d :: rest) =
      (c :: (splitSessions w d rest).1, (splitSessions w d rest).2) := by
  simp only [splitSessions]
  rw [if_pos h]

lemma splitSessions_cons_neg (w : Int) (c d : Call) (rest : List Call)
    (h : ¬(d.number = c.number ∧ d.timestamp - c.timestamp ≤ w)) :
    splitSessions w c (d :: rest) =
      ([c], (splitSessions w d rest).1 :: (splitSessions w d rest).2) := by
  simp only [splitSessions]
  rw [if_neg h]

lemma splitSessions_fst_cons (w : Int) (c : Call) (l : List Call) :
    ∃ t, (splitSessions w c l).1 = c :: t := by
  cases l with
  | nil => exact ⟨[], rfl⟩
  | cons d rest =>
    by_cases h : d.number = c.number ∧ d.timestamp - c.timestamp ≤ w
    · rw [splitSessions_cons_pos w c d rest h]
      exact ⟨(splitSessions w d rest).1, rfl⟩
    · rw [splitSessions_cons_neg w c d rest h]
      exact ⟨[], rfl⟩

lemma splitSessions_flatten (w : Int) :
    ∀ (l : List Call) (c : Call),
      (splitSessions w c l).1 ++ ((splitSessions w c l).2).flatten = c :: l := by
  intro l
  induction l with
  | nil => intro c; rfl
  | cons d rest ih =>
    intro c
    by_cases h : d.number = c.number ∧ d.timestamp - c.timestamp ≤ w
    · rw [splitSessions_cons_pos w c d rest h]
      simp only [List.cons_append]
      rw [ih d]
    · rw [splitSessions_cons_neg w c d rest h]
      simp only [List.flatten_cons, List.singleton_append]
      rw [ih d]

lemma sessionsOfSorted_flatten (w : Int) (L : List Call) :
    (sessionsOfSorted w L).flatten = L := by
  cases L with
  | nil => rfl
  | cons c rest =>
    simp only [sessionsOfSorted, List.flatten_cons]
    exact splitSessions_flatten w rest c

lemma splitSessions_ne_nil (w : Int) :
    ∀ (l : List Call) (c : Call),
      (splitSessions w c l).1 ≠ [] ∧ ∀ s ∈ (splitSessions w c l).2, s ≠ [] := by
  intro l
  induction l with
  | nil =>
    intro c
    exact ⟨by simp [splitSessions], by simp [splitSessions]⟩
  | cons d rest ih =>
    intro c
    by_cases h : d.number = c.number ∧ d.timestamp - c.timestamp ≤ w
    · rw [splitSessions_cons_pos w c d rest h]
      exact ⟨by simp, (ih d).2⟩
    · rw [splitSessions_cons_neg w c d rest h]
      refine ⟨by simp, ?_⟩
      intro s hs
      rcases List.mem_cons.mp hs with rfl | hs
      · exact (ih d).1
      · exact (ih d).2 s hs

lemma splitSessions_chain (w : Int) :
    ∀ (l : List Call) (c : Call),
      List.Chain' (fun p q => q.number = p.number ∧ q.timestamp - p.timestamp ≤ w)
        (splitSessions w c l).1 ∧
      ∀ s ∈ (splitSessions w c l).2,
        List.Chain' (fun p q => q.number = p.number ∧ q.timestamp - p.timestamp ≤ w) s := by
  intro l
  induction l with
  | nil =>
    intro c
    exact ⟨by simp [splitSessions], by simp [splitSessions]⟩
  | cons d rest ih =>
    intro c
    by_cases h : d.number = c.number ∧ d.timestamp - c.timestamp ≤ w
    · rw [splitSessions_cons_pos w c d rest h]
      constructor
      · obtain ⟨t, ht⟩ := splitSessions_fst_cons w d rest
        rw [ht, List.chain'_cons]
        exact ⟨h, ht ▸ (ih d).1⟩
      · exact (ih d).2
    · rw [splitSessions_cons_neg w c d rest h]
      refine ⟨by simp, ?_⟩
      intro s hs
      rcases List.mem_cons.mp hs with rfl | hs
      · exact (ih d).1
      · exact (ih d).2 s hs

lemma between_same_number (c d b : Call) (hcd : callLE c d) (hdb : d = b ∨ callLE d b)
    (hnum : c.number = b.number) :
    d.number = c.number ∧ c.timestamp ≤ d.timestamp ∧ d.timestamp ≤ b.timestamp := by
  rcases hcd with h1 | ⟨h1, ht1⟩
  · exfalso
    rcases hdb with rfl | h2
    · rw [hnum] at h1
      exact lt_irrefl _ h1
    · rcases h2 with h2 | ⟨h2, _⟩
      · have := h1.trans h2
        rw [hnum] at this
        exact lt_irrefl _ this
      · rw [h2] at h1
        rw [hnum] at h1
        exact lt_irrefl _ h1
  · rcases hdb with rfl | h2
    · exact ⟨h1.symm, ht1, le_refl _⟩
    · rcases h2 with h2 | ⟨h2, ht2⟩
      · exfalso
        rw [← h1] at h2
        rw [hnum] at h2
        exact lt_irrefl _ h2
      · exact ⟨h1.symm, ht1, ht2⟩

lemma mem_splitSessions_fst (w : Int) (_hw : 0 ≤ w) :
    ∀ (l : List Call) (c b : Call), List.Pairwise callLE (c :: l) →
      b ∈ c :: l → b.number = c.number → b.timestamp ≤ c.timestamp + w →
      b ∈ (splitSessions w c l).1 := by
  intro l
  induction l with
  | nil =>
    intro c b _ hb _ _
    simpa [splitSessions] using hb
  | cons d rest ih =>
    intro c b hpw hb hnum hts
    rcases List.mem_cons.mp hb with rfl | hb'
    · obtain ⟨t, ht⟩ := splitSessions_fst_cons w b (d :: rest)
      rw [ht]
      exact List.mem_cons_self _ _
    · have hcd : callLE c d := (List.pairwise_cons.mp hpw).1 d (List.mem_cons_self d rest)
      have hpw' : List.Pairwise callLE (d :: rest) := (List.pairwise_cons.mp hpw).2
      have hdb : d = b ∨ callLE d b := by
        rcases List.mem_cons.mp hb' with rfl | hb''
        · exact Or.inl rfl
        · exact Or.inr ((List.pairwise_cons.mp hpw').1 b hb'')
      obtain ⟨hdnum, hcdts, hdbts⟩ := between_same_number c d b hcd hdb hnum.symm
      have hcond : d.number = c.number ∧ d.timestamp - c.timestamp ≤ w :=
        ⟨hdnum, by omega⟩
      rw [splitSessions_cons_pos w c d rest hcond]
      refine List.mem_cons_of_mem c (ih d b hpw' hb' ?_ ?_)
      · rw [hnum, hdnum]
      · omega

lemma same_session_of_close (w : Int) (hw : 0 ≤ w) :
    ∀ (L : List Call) (a b : Call), List.Pairwise callLE L →
      a ∈ L → b ∈ L → a.number = b.number →
      a.timestamp ≤ b.timestamp → b.timestamp - a.timestamp ≤ w →
      ∃ s ∈ sessionsOfSorted w L, a ∈ s ∧ b ∈ s := by
  intro L
  induction L with
  | nil =>
    intro a b _ ha
    simp at ha
  | cons c rest ih =>
    intro a b hpw ha hb hnum hle hgap
    rcases List.mem_cons.mp ha with rfl | ha'
    · have hbfst : b ∈ (splitSessions w a rest).1 :=
        mem_splitSessions_fst w hw rest a b hpw hb hnum.symm (by omega)
      obtain ⟨t, ht⟩ := splitSessions_fst_cons w a rest
      refine ⟨(splitSessions w a rest).1, List.mem_cons_self _ _, ?_, hbfst⟩
      rw [ht]
      exact List.mem_cons_self _ _
    · rcases List.mem_cons.mp hb with rfl | hb'
      · have hca : callLE b a := (List.pairwise_cons.mp hpw).1 a ha'
        have heqts : a.timestamp = b.timestamp := by
          rcases hca with h1 | ⟨h1, ht1⟩
          · exfalso
            rw [← hnum] at h1
            exact lt_irrefl _ h1
          · omega
        have hafst : a ∈ (splitSessions w b rest).1 :=
          mem_splitSessions_fst w hw rest b a hpw (List.mem_cons_of_mem b ha')
            hnum (by omega)
        obtain ⟨t, ht⟩ := splitSessions_fst_cons w b rest
        refine ⟨(splitSessions w b rest).1, List.mem_cons_self _ _, hafst, ?_⟩
        rw [ht]
        exact List.mem_cons_self _ _
      · cases rest with
        | nil => simp at ha'
        | cons d rest' =>
          have hpw' : List.Pairwise callLE (d :: rest') := (List.pairwise_cons.mp hpw).2
          obtain ⟨s, hs, has, hbs⟩ := ih a b hpw' ha' hb' hnum hle hgap
          simp only [sessionsOfSorted] at hs ⊢
          rcases List.mem_cons.mp hs with rfl | hs2
          · by_cases hcond : d.number = c.number ∧ d.timestamp - c.timestamp ≤ w
            · rw [splitSessions_cons_pos w c d rest' hcond]
              exact ⟨c :: (splitSessions w d rest').1, List.mem_cons_self _ _,
                List.mem_cons_of_mem c has, List.mem_cons_of_mem c hbs⟩
            · rw [splitSessions_cons_neg w c d rest' hcond]
              exact ⟨(splitSessions w d rest').1,
                List.mem_cons_of_mem _ (List.mem_cons_self _ _), has, hbs⟩
          · by_cases hcond : d.number = c.number ∧ d.timestamp - c.timestamp ≤ w
            · rw [splitSessions_cons_pos w c d rest' hcond]
              exact ⟨s, List.mem_cons_of_mem _ hs2, has, hbs⟩
            · rw [splitSessions_cons_neg w c d rest' hcond]
              exact ⟨s, List.mem_cons_of_mem _ (List.mem_cons_of_mem _ hs2), has, hbs⟩

lemma chain_number_eq_head (w : Int) :
    ∀ (rest : List Call) (c : Call),
      List.Chain' (fun p q => q.number = p.number ∧ q.timestamp - p.timestamp ≤ w)
        (c :: rest) →
      ∀ x ∈ c :: rest, x.number = c.number := by
  intro rest
  induction rest with
  | nil =>
    intro c _ x hx
    rcases List.mem_cons.mp hx with rfl | hx
    · rfl
    · simp at hx
  | cons d rest' ih =>
    intro c hch x hx
    have hcd : d.number = c.number ∧ d.timestamp - c.timestamp ≤ w :=
      (List.chain'_cons.mp hch).1
    have hch' : List.Chain' (fun p q => q.number = p.number ∧ q.timestamp - p.timestamp ≤ w)
        (d :: rest') := (List.chain'_cons.mp hch).2
    rcases List.mem_cons.mp hx with rfl | hx'
    · rfl
    · rw [ih d hch' x hx']
      exact hcd.1

lemma session_chain_of_mem (calls : List Call) (m : Int) (s : List Call)
    (hs : s ∈ group_calls_by_session calls m) :
    List.Chain' (fun p q => q.number = p.number ∧ q.timestamp - p.timestamp ≤ 60 * m) s := by
  unfold group_calls_by_session at hs
  cases hsort : List.insertionSort callLE calls with
  | nil =>
    rw [hsort] at hs
    simp [sessionsOfSorted] at hs
  | cons c rest =>
    rw [hsort] at hs
    simp only [sessionsOfSorted] at hs
    rcases List.mem_cons.mp hs with rfl | hs2
    · exact (splitSessions_chain (60 * m) rest c).1
    · exact (splitSessions_chain (60 * m) rest c).2 s hs2

/-- C1: two records with the same number whose timestamps are exactly
`window_minutes` apart (inclusive boundary, here `60 * m` seconds) always
land in the same session; and within every session each record has the same
number as its predecessor with a gap of at most the window — equivalently, a
differing number or a gap exceeding the window always starts a new
session. -/
theorem time_window_boundary (calls : List Call) (m : Int) (hm : 0 ≤ m) :
    (∀ a ∈ calls, ∀ b ∈ calls, a.number = b.number →
      b.timestamp - a.timestamp = 60 * m →
      ∃ s ∈ group_calls_by_session calls m, a ∈ s ∧ b ∈ s) ∧
    (∀ s ∈ group_calls_by_session calls m,
      List.Chain' (fun p q => q.number = p.number ∧ q.timestamp - p.timestamp ≤ 60 * m) s) := by
  constructor
  · intro a ha b hb hnum hgap
    have hw : (0 : Int) ≤ 60 * m := by omega
    have hsorted : List.Pairwise callLE (List.insertionSort callLE calls) :=
      List.sorted_insertionSort callLE calls
    have hperm := List.perm_insertionSort callLE calls
    have ha' : a ∈ List.insertionSort callLE calls := hperm.mem_iff.mpr ha
    have hb' : b ∈ List.insertionSort callLE calls := hperm.mem_iff.mpr hb
    exact same_session_of_close (60 * m) hw _ a b hsorted ha' hb' hnum
      (by omega) (by omega)
  · exact session_chain_of_mem calls m

/-- Witness for C1: with a 2-minute window, two records 120 seconds apart on
the same number share a session. -/
theorem time_window_boundary_witness :
    (0 : Int) ≤ 2 ∧
    ∃ s ∈ group_calls_by_session
      [⟨"555", 0, none, some 1, false, none, none⟩,
       ⟨"555", 120, none, some 2, false, none, none⟩] 2,
      (⟨"555", 0, none, some 1, false, none, none⟩ : Call) ∈ s ∧
      (⟨"555", 120, none, some 2, false, none, none⟩ : Call) ∈ s :=
  ⟨by decide,
    (time_window_boundary _ 2 (by decide)).1
      ⟨"555", 0, none, some 1, false, none, none⟩ (by decide)
      ⟨"555", 120, none, some 2, false, none, none⟩ (by decide)
      (by decide) (by decide)⟩

open List in
/-- C9: the sessions produced by `group_calls_by_session` concatenate back to
exactly the input sorted ascending by `(number, timestamp)` — a permutation
of the input with no record dropped or duplicated — and every session is
non-empty, contains only records of one number, and has non-decreasing
timestamps. -/
theorem time_window_partition (calls : List Call) (m : Int) :
    (group_calls_by_session calls m).flatten = List.insertionSort callLE calls ∧
    (group_calls_by_session calls m).flatten ~ calls ∧
    List.Sorted callLE (group_calls_by_session calls m).flatten ∧
    (∀ s ∈ group_calls_by_session calls m, s ≠ []) ∧
    (∀ s ∈ group_calls_by_session calls m, ∀ a ∈ s, ∀ b ∈ s, a.number = b.number) ∧
    (∀ s ∈ group_calls_by_session calls m,
      List.Pairwise (fun p q => p.timestamp ≤ q.timestamp) s) := by
  have hflat : (group_calls_by_session calls m).flatten = List.insertionSort callLE calls :=
    sessionsOfSorted_flatten (60 * m) (List.insertionSort callLE calls)
  have hsorted : List.Sorted callLE (group_calls_by_session calls m).flatten := by
    rw [hflat]
    exact List.sorted_insertionSort callLE calls
  have hnum : ∀ s ∈ group_calls_by_session calls m, ∀ a ∈ s, ∀ b ∈ s,
      a.number = b.number := by
    intro s hs a ha b hb
    have hch := session_chain_of_mem calls m s hs
    cases s with
    | nil => simp at ha
    | cons c rest =>
      rw [chain_number_eq_head (60 * m) rest c hch a ha]
      rw [chain_number_eq_head (60 * m) rest c hch b hb]
  refine ⟨hflat, ?_, hsorted, ?_, hnum, ?_⟩
  · rw [hflat]
    exact List.perm_insertionSort callLE calls
  · intro s hs
    unfold group_calls_by_session at hs
    cases hsort : List.insertionSort callLE calls with
    | nil =>
      rw [hsort] at hs
      simp [sessionsOfSorted] at hs
    | cons c rest =>
      rw [hsort] at hs
      simp only [sessionsOfSorted] at hs
      rcases List.mem_cons.mp hs with rfl | hs2
      · exact (splitSessions_ne_nil (60 * m) rest c).1
      · exact (splitSessions_ne_nil (60 * m) rest c).2 s hs2
  · intro s hs
    have hsub : s <+ (group_calls_by_session calls m).flatten :=
      List.sublist_flatten_of_mem hs
    have hpw : List.Pairwise callLE s := List.Pairwise.sublist hsub hsorted
    refine List.Pairwise.imp_of_mem ?_ hpw
    intro a b ha hb hab
    rcases hab with h1 | ⟨_, ht⟩
    · exfalso
      rw [hnum s hs a ha b hb] at h1
      exact lt_irrefl _ h1
    · exact ht

/-- Witness for C9 at a concrete input. -/
theorem time_window_partition_witness :
    (group_calls_by_session [⟨"555", 0, none, some 1, false, none, none⟩] 2).flatten =
      List.insertionSort callLE [⟨"555", 0, none, some 1, false, none, none⟩] ∧
    ([(⟨"555", 0, none, some 1, false, none, none⟩ : Call)] : List Call) ≠ [] :=
  ⟨(time_window_partition [⟨"555", 0, none, some 1, false, none, none⟩] 2).1,
    (time_window_partition [⟨"555", 0, none, some 1, false, none, none⟩] 2).2.2.2.1
      [⟨"555", 0, none, some 1, false, none, none⟩] (by decide)⟩

/-- Witness for C4 (amended) at a concrete two-record session. -/
theorem session_timestamps_by_stage_sort_witness :
    adminFirstTimestamp [⟨"555", 100, none, some 1, false, none, none⟩,
        ⟨"555", 50, none, some 2, false, none, none⟩] =
      (([⟨"555", 100, none, some 1, false, none, none⟩,
        ⟨"555", 50, none, some 2, false, none, none⟩] : List Call).find?
        (fun c => stageVal c = minStageVal
          [⟨"555", 100, none, some 1, false, none, none⟩,
           ⟨"555", 50, none, some 2, false, none, none⟩])).map Call.timestamp :=
  (session_timestamps_by_stage_sort _ (by decide)).1

end XDial
